import Mathlib

/-!
Verification of the Mandelbrot computation engine (`src/lib.rs`, `src/simd_par.rs`).

The engine is embedded shallowly:
* Rust `f32`/`f64` arithmetic is modelled by exact rational arithmetic (`ℚ`);
* the `u8`/`u32` iteration counters are modelled by `ℕ` (the loops only ever
  increment them while strictly below the budget, so no wrap-around occurs);
* the rayon row-parallel loops are modelled by their sequential semantics,
  which is faithful because each task writes a disjoint row range and reads
  only immutable inputs;
* the `assert_eq!` in `simd_par::generate` is modelled as an `Except.error`;
* `compute_mandelbrot`, which writes through a caller-provided mutable
  array view, is modelled by its write trace: the list, in execution order,
  of `((row, col), point, value)` triples it stores.
-/

namespace Mandel

/-- A complex number, as in the Rust `Complex` structs: a pair of reals
(modelled exactly by rationals). -/
abbrev QC := ℚ × ℚ

/-- `impl Add for Complex` (lib.rs): componentwise addition. -/
def qadd (u v : QC) : QC := (u.1 + v.1, u.2 + v.2)

/-- `impl Mul for Complex` (lib.rs): `(a.a*b.a - a.b*b.b, a.a*b.b + a.b*b.a)`. -/
def qmul (u v : QC) : QC := (u.1 * v.1 - u.2 * v.2, u.1 * v.2 + u.2 * v.1)

/-- `Complex::arg_sq` (lib.rs): squared magnitude `a*a + b*b`. -/
def arg_sq (z : QC) : ℚ := z.1 * z.1 + z.2 * z.2

/-- The loop of `mandelbrot_kernel` (lib.rs:97-106).  The Rust loop runs
`while i < max && z.arg_sq() < 4.0 { z = z*z + c; i += 1 }`; here the
remaining fuel `n` stands for `max - i`, so `n = 0` is exactly `i = max`. -/
def kernelAux (c : QC) : QC → ℕ → ℕ → ℕ
  | _, 0, i => i
  | z, n + 1, i =>
    if arg_sq z < 4 then kernelAux c (qadd (qmul z z) c) n (i + 1) else i

/-- `mandelbrot_kernel` (lib.rs:97-106): escape-time count for one point,
starting from `z = 0`, `c = (x, y)`. -/
def mandelbrot_kernel (x y : ℚ) (max : ℕ) : ℕ :=
  kernelAux (x, y) (0, 0) max 0

/-- The scalar orbit: `z_0 = 0`, `z_{k+1} = z_k * z_k + c`
(the iterates of the `mandelbrot_kernel` loop). -/
def scalarOrbit (c : QC) : ℕ → QC
  | 0 => (0, 0)
  | k + 1 => qadd (qmul (scalarOrbit c k) (scalarOrbit c k)) c

/-- `Complex::undiverged` (simd_par.rs:25-33), for one lane:
`(x*x + y*y).le(THRESHOLD)` with `THRESHOLD = 4.0`. -/
def undiverged (z : QC) : Bool := decide (arg_sq z ≤ 4)

/-- The step taken by `MandelbrotIter::next` (simd_par.rs:80-100), per lane:
`new = (c_x + (xx - yy), c_y + (xy + xy))`, i.e. `c + z²`. -/
def mandelNext (c z : QC) : QC := qadd c (qmul z z)

/-- `MandelbrotIter::next` (simd_par.rs:80-100): updates `current` to
`start + current²` and returns it wrapped in `Some`.  The result pairs the
returned `Option` with the mutated iterator state `(start, current)`. -/
def next (s : QC × QC) : Option QC × (QC × QC) :=
  (some (mandelNext s.1 s.2), (s.1, mandelNext s.1 s.2))

/-- The orbit traversed by `MandelbrotIter::count`: the local `z` starts at
`self.start = c` and each loop iteration replaces it by `next()`, i.e.
`c + z²`.  So `simdOrbit c t` is the scalar iterate `z_{t+1}`. -/
def simdOrbit (c : QC) : ℕ → QC
  | 0 => c
  | t + 1 => mandelNext c (simdOrbit c t)

/-- One lane of the vectorized state: `(start, current z, count)`. -/
abbrev LaneSt := QC × QC × ℕ

/-- One loop iteration of `MandelbrotIter::count` for one lane:
`count += undiverged.select(1, 0)` (mask from the current `z`), then
`z = self.next().unwrap()`. -/
def laneStep (s : LaneSt) : LaneSt :=
  (s.1, mandelNext s.1 s.2.1, if undiverged s.2.1 then s.2.2 + 1 else s.2.2)

/-- `undiverged.none()` (simd_par.rs:67): every lane has diverged. -/
def allDiverged (s : List LaneSt) : Bool :=
  s.all fun t => !(undiverged t.2.1)

/-- The `for _ in 0..iters` loop of `MandelbrotIter::count`
(simd_par.rs:56-77), over a whole lane group: stop early when every lane
has diverged, otherwise advance every lane. -/
def countLoop : ℕ → List LaneSt → List LaneSt
  | 0, s => s
  | n + 1, s => if allDiverged s then s else countLoop n (s.map laneStep)

/-- `MandelbrotIter::count` (simd_par.rs:56-77) on a lane group `cs`
(the Rust code fixes the group width at 8 = `f32x8` lanes; the list model
keeps it general): per-lane escape counts after at most `iters` steps. -/
def count (cs : List QC) (iters : ℕ) : List ℕ :=
  (countLoop iters (cs.map fun c => (c, c, 0))).map fun t => t.2.2

/-- The write trace of the inner `for col in 0..height` loop of
`compute_mandelbrot` (lib.rs:112-117): `x` accumulates `+= dx` and `col`
increments; each step records `((row, col), (x, y), kernel x y iters)`. -/
def colsGo (y dx : ℚ) (iters row : ℕ) : ℚ → ℕ → ℕ → List ((ℕ × ℕ) × QC × ℕ)
  | _, _, 0 => []
  | x, col, n + 1 =>
    ((row, col), (x, y), mandelbrot_kernel x y iters) ::
      colsGo y dx iters row (x + dx) (col + 1) n

/-- The write trace of the outer `for row in 0..height` loop of
`compute_mandelbrot` (lib.rs:112-119): `y` accumulates `+= dy`; each row
restarts `x` at `min_x` and runs the inner loop `inner` times. -/
def rowsGo (min_x dx dy : ℚ) (inner iters : ℕ) :
    ℚ → ℕ → ℕ → List ((ℕ × ℕ) × QC × ℕ)
  | _, _, 0 => []
  | y, row, n + 1 =>
    colsGo y dx iters row min_x 0 inner ++
      rowsGo min_x dx dy inner iters (y + dy) (row + 1) n

/-- `compute_mandelbrot` (lib.rs:108-120), as its write trace.
`dx = (max_x - min_x)/width`, `dy = (max_y - min_y)/height`; the outer loop
runs `height` times and — exactly as in the source — the inner column loop
also runs `height` times (`for col in 0..height`), not `width` times. -/
def compute_mandelbrot (min_x max_x min_y max_y : ℚ) (width height iters : ℕ) :
    List ((ℕ × ℕ) × QC × ℕ) :=
  rowsGo min_x ((max_x - min_x) / (width : ℚ)) ((max_y - min_y) / (height : ℚ))
    height iters min_y 0 height

/-- `compute_mandelbrot_par` (lib.rs:122-140): the output vector of length
`width * height`, row-major; row `i` (one rayon chunk) gets
`y = min_y + dy * i` and cell `j` gets `x = min_x + dx * j`. -/
def compute_mandelbrot_par (min_x max_x min_y max_y : ℚ)
    (width height iters : ℕ) : List ℕ :=
  ((List.range height).map fun i =>
    (List.range width).map fun j =>
      mandelbrot_kernel (min_x + (max_x - min_x) / (width : ℚ) * (j : ℕ))
        (min_y + (max_y - min_y) / (height : ℚ) * (i : ℕ)) iters).flatten

/-- `simd_par::generate` (simd_par.rs:102-155).  The `assert_eq!` on
`width % block_size` (block size 8 = `f32x8::lanes()`) is modelled as an
`Except.error` carrying the assertion's message; on success the output is
the row-major grid, each row the concatenation of its 8-lane blocks, where
block `j` of row `i` runs `MandelbrotIter::count` on the lane points
`x = min_x + dx * (8*j + l)` (`l < 8`, from the precomputed `xs` buffer)
and `y = min_y + dy * i`. -/
def generate (min_x max_x min_y max_y : ℚ) (width height : ℕ) (iters : ℕ) :
    Except String (List ℕ) :=
  if width % 8 = 0 then
    Except.ok
      (((List.range height).map fun i =>
        (((List.range (width / 8)).map fun j =>
          count
            ((List.range 8).map fun l =>
              (min_x + (max_x - min_x) / (width : ℚ) * ((8 * j + l : ℕ) : ℚ),
               min_y + (max_y - min_y) / (height : ℚ) * (i : ℚ)))
            iters).flatten)).flatten)
  else
    Except.error "image width is not divisible by the number of vector lanes"

/-- Length of the longest all-true run of `p` starting at `s`, looking at
most `n` indices ahead. -/
def frontLen (p : ℕ → Bool) : ℕ → ℕ → ℕ
  | _, 0 => 0
  | s, n + 1 => if p s then frontLen p (s + 1) n + 1 else 0

/-- Number of true values of `p` among the `n` indices starting at `s`. -/
def cntFrom (p : ℕ → Bool) : ℕ → ℕ → ℕ
  | _, 0 => 0
  | s, n + 1 => (if p s then 1 else 0) + cntFrom p (s + 1) n

/-- The continuation test of the scalar kernel at orbit index `k`:
`arg_sq z_k < 4`. -/
def scalarP (c : QC) (k : ℕ) : Bool := decide (arg_sq (scalarOrbit c k) < 4)

/-- The vectorized per-lane mask at loop step `t`: `undiverged z_{t+1}`. -/
def laneP (c : QC) (t : ℕ) : Bool := undiverged (simdOrbit c t)

/-! ### Prefix-length bookkeeping -/

theorem frontLen_le (p : ℕ → Bool) : ∀ s n, frontLen p s n ≤ n
  | _, 0 => Nat.le_refl 0
  | s, n + 1 => by
    unfold frontLen
    split
    · exact Nat.succ_le_succ (frontLen_le p (s + 1) n)
    · exact Nat.zero_le _

theorem frontLen_full (p : ℕ → Bool) :
    ∀ s n, (∀ t, s ≤ t → t < s + n → p t = true) → frontLen p s n = n
  | _, 0, _ => rfl
  | s, n + 1, h => by
    unfold frontLen
    rw [h s (Nat.le_refl s) (by omega), frontLen_full p (s + 1) n fun t ht ht2 =>
      h t (by omega) (by omega)]
    simp

theorem cntFrom_of_false (p : ℕ → Bool) :
    ∀ s n, (∀ t, s ≤ t → p t = false) → cntFrom p s n = 0
  | _, 0, _ => rfl
  | s, n + 1, h => by
    unfold cntFrom
    rw [h s (Nat.le_refl s), cntFrom_of_false p (s + 1) n fun t ht => h t (by omega)]
    simp

theorem cntFrom_eq_frontLen (p : ℕ → Bool)
    (anti : ∀ t u, t ≤ u → p u = true → p t = true) :
    ∀ s n, cntFrom p s n = frontLen p s n
  | _, 0 => rfl
  | s, n + 1 => by
    unfold cntFrom frontLen
    cases hp : p s with
    | true => rw [cntFrom_eq_frontLen p anti (s + 1) n]; simp; omega
    | false =>
      have hall : ∀ t, s + 1 ≤ t → p t = false := by
        intro t ht
        cases hpt : p t with
        | true => exact absurd (anti s t (by omega) hpt) (by simp [hp])
        | false => rfl
      simp [cntFrom_of_false p (s + 1) n hall]

theorem frontLen_stable (p : ℕ → Bool) :
    ∀ n m s, (∃ t, s ≤ t ∧ t < s + n ∧ p t = false) →
      frontLen p s (n + m) = frontLen p s n
  | 0, _, _, h => by
    rcases h with ⟨t, ht1, ht2, _⟩; omega
  | n + 1, m, s, h => by
    rcases h with ⟨t, ht1, ht2, ht3⟩
    rw [show n + 1 + m = (n + m) + 1 by omega]
    unfold frontLen
    cases hp : p s with
    | false => rfl
    | true =>
      have hts : t ≠ s := fun he => by rw [he, hp] at ht3; cases ht3
      rw [frontLen_stable p n m (s + 1) ⟨t, by omega, by omega, ht3⟩]

/-! ### Characterization of the scalar kernel -/

theorem kernelAux_eq (c : QC) :
    ∀ n s i, kernelAux c (scalarOrbit c s) n i = i + frontLen (scalarP c) s n
  | 0, _, i => rfl
  | n + 1, s, i => by
    unfold kernelAux frontLen
    rw [show scalarP c s = decide (arg_sq (scalarOrbit c s) < 4) from rfl]
    split
    · next h =>
      rw [decide_eq_true h,
        show qadd (qmul (scalarOrbit c s) (scalarOrbit c s)) c = scalarOrbit c (s + 1)
          from rfl,
        kernelAux_eq c n (s + 1) (i + 1)]
      simp; omega
    · next h => rw [decide_eq_false h]; simp

/-- `mandelbrot_kernel x y b` is the number of leading orbit indices
`k = 0, 1, …` (at most `b`) with `arg_sq z_k < 4`: equivalently, the
1-indexed first step whose iterate satisfies `arg_sq ≥ 4`, capped at `b`. -/
theorem mandelbrot_kernel_eq (x y : ℚ) (b : ℕ) :
    mandelbrot_kernel x y b = frontLen (scalarP (x, y)) 0 b := by
  have h0 : scalarOrbit (x, y) 0 = (0, 0) := rfl
  rw [mandelbrot_kernel, ← h0, kernelAux_eq]
  omega

/-! ### Divergence is permanent along a `simdOrbit`

Mathematically: if `|z| > 2` then `|c + z²| ≥ |z|² - |c|`, which stays
above `2` when `|c| ≤ 2`; and when `|c| > 2` every iterate keeps
`|z| ≥ |c| > 2`.  The proofs below work with squared magnitudes only, so
they stay inside `ℚ`. -/

theorem sq_mag_contra (S C cr : ℚ) (hS : 4 < S) (hC0 : 0 ≤ C) (hC : C ≤ 4)
    (hCS : (2 * cr) ^ 2 ≤ 4 * S ^ 2 * C) (hE : C + 2 * cr + S ^ 2 ≤ 4) : False := by
  have h1 : 16 < S ^ 2 := by nlinarith
  have h2 : 0 < S ^ 2 + C - 4 := by linarith
  have h3 : S ^ 2 + C - 4 ≤ -(2 * cr) := by linarith
  have h4 : (S ^ 2 + C - 4) * (S ^ 2 + C - 4) ≤ -(2 * cr) * -(2 * cr) :=
    mul_self_le_mul_self (le_of_lt h2) h3
  have h5 : (S ^ 2 + C - 4) ^ 2 - 4 * S ^ 2 * C =
      S ^ 2 * (S ^ 2 - 16) + (4 - C) * (2 * S ^ 2 + 4 - C) := by ring
  have h6 : 0 < S ^ 2 * (S ^ 2 - 16) := mul_pos (by nlinarith) (by linarith)
  have h7 : 0 ≤ (4 - C) * (2 * S ^ 2 + 4 - C) :=
    mul_nonneg (by linarith) (by linarith)
  nlinarith [h4, h5, h6, h7, hCS]

theorem sq_mag_contra2 (S C cr : ℚ) (hC : 4 < C) (hSC : C ≤ S)
    (hCS : (2 * cr) ^ 2 ≤ 4 * S ^ 2 * C) (hE : 2 * cr + S ^ 2 < 0) : False := by
  have hS0 : 0 < S := by linarith
  have h2 : S ^ 2 < -(2 * cr) := by nlinarith
  have h3 : S ^ 2 * S ^ 2 < -(2 * cr) * -(2 * cr) :=
    mul_self_lt_mul_self (by positivity) h2
  have h4 : S ^ 2 * S ^ 2 < 4 * S ^ 2 * C := by nlinarith [h3, hCS]
  nlinarith [h4, mul_pos hS0 hS0, mul_le_mul_of_nonneg_left hSC (le_of_lt hS0)]

/-- Cauchy–Schwarz for the cross term of `arg_sq (c + z²)`. -/
theorem cross_bound (x y a b : ℚ) :
    (2 * (a * (x * x - y * y) + b * (x * y + y * x))) ^ 2 ≤
      4 * (x * x + y * y) ^ 2 * (a * a + b * b) := by
  nlinarith [sq_nonneg (a * (x * y + y * x) - b * (x * x - y * y))]

/-- If the start `c` has `arg_sq ≤ 4` and the current iterate has
`arg_sq > 4`, the next iterate `c + z²` also has `arg_sq > 4`. -/
theorem argsq_step_big (c z : QC) (hc : arg_sq c ≤ 4) (hz : 4 < arg_sq z) :
    4 < arg_sq (mandelNext c z) := by
  rcases c with ⟨a, b⟩
  rcases z with ⟨x, y⟩
  by_contra hE
  push_neg at hE
  simp only [arg_sq, mandelNext, qadd, qmul] at hc hz hE
  refine sq_mag_contra (x * x + y * y) (a * a + b * b)
    (a * (x * x - y * y) + b * (x * y + y * x)) (by linarith)
    (add_nonneg (mul_self_nonneg a) (mul_self_nonneg b))
    (by linarith) (cross_bound x y a b) (by nlinarith [hE])

/-- If the start `c` has `arg_sq > 4`, then `arg_sq z ≥ arg_sq c` is
preserved by the step `z ↦ c + z²`. -/
theorem argsq_step_ge (c z : QC) (hc : 4 < arg_sq c) (hzc : arg_sq c ≤ arg_sq z) :
    arg_sq c ≤ arg_sq (mandelNext c z) := by
  rcases c with ⟨a, b⟩
  rcases z with ⟨x, y⟩
  by_contra hE
  push_neg at hE
  simp only [arg_sq, mandelNext, qadd, qmul] at hc hzc hE
  refine sq_mag_contra2 (x * x + y * y) (a * a + b * b)
    (a * (x * x - y * y) + b * (x * y + y * x)) (by linarith) (by linarith)
    (cross_bound x y a b) (by nlinarith [hE])

theorem simdOrbit_argsq_ge (c : QC) (hc : 4 < arg_sq c) :
    ∀ t, arg_sq c ≤ arg_sq (simdOrbit c t)
  | 0 => le_refl _
  | t + 1 => argsq_step_ge c (simdOrbit c t) hc (simdOrbit_argsq_ge c hc t)

/-- Divergence monotonicity for the vectorized orbit: once an iterate has
`arg_sq > 4`, so do all later iterates. -/
theorem simd_mono (c : QC) (t : ℕ) (h : 4 < arg_sq (simdOrbit c t)) :
    4 < arg_sq (simdOrbit c (t + 1)) := by
  rcases le_or_lt (arg_sq c) 4 with hc | hc
  · exact argsq_step_big c (simdOrbit c t) hc h
  · exact lt_of_lt_of_le hc (simdOrbit_argsq_ge c hc (t + 1))

theorem laneP_false_iff (c : QC) (t : ℕ) :
    laneP c t = false ↔ 4 < arg_sq (simdOrbit c t) := by
  simp [laneP, undiverged, not_le]

theorem laneP_false_mono (c : QC) {t u : ℕ} (htu : t ≤ u)
    (h : laneP c t = false) : laneP c u = false := by
  induction u, htu using Nat.le_induction with
  | base => exact h
  | succ u _ ih =>
    exact (laneP_false_iff c (u + 1)).mpr (simd_mono c u ((laneP_false_iff c u).mp ih))

theorem laneP_anti (c : QC) : ∀ t u, t ≤ u → laneP c u = true → laneP c t = true := by
  intro t u htu hu
  cases ht : laneP c t with
  | true => rfl
  | false => rw [laneP_false_mono c htu ht] at hu; cases hu

/-! ### Characterization of `count` -/

/-- `laneStep` iterated, i.e. the loop of `count` without the early exit. -/
def laneIter : ℕ → LaneSt → LaneSt
  | 0, t => t
  | n + 1, t => laneIter n (laneStep t)

theorem laneStep_orbit (c : QC) (off k : ℕ) :
    laneStep (c, simdOrbit c off, k) =
      (c, simdOrbit c (off + 1), if laneP c off then k + 1 else k) := rfl

theorem cntFrom_succ (p : ℕ → Bool) (s n : ℕ) :
    cntFrom p s (n + 1) = (if p s then 1 else 0) + cntFrom p (s + 1) n := rfl

theorem laneIter_cnt (c : QC) :
    ∀ n off k, (laneIter n (c, simdOrbit c off, k)).2.2 = k + cntFrom (laneP c) off n
  | 0, _, k => rfl
  | n + 1, off, k => by
    rw [show laneIter (n + 1) (c, simdOrbit c off, k) =
        laneIter n (laneStep (c, simdOrbit c off, k)) from rfl,
      laneStep_orbit, cntFrom_succ]
    cases hp : laneP c off with
    | true =>
      simp only [if_pos]
      rw [laneIter_cnt c n (off + 1) (k + 1)]
      omega
    | false =>
      simp only [Bool.false_eq_true, if_neg, not_false_eq_true]
      rw [laneIter_cnt c n (off + 1) k]
      omega

/-- A lane state whose current `z` is an iterate of its own start. -/
def IsOrbitSt (t : LaneSt) : Prop := ∃ off, t.2.1 = simdOrbit t.1 off

theorem laneStep_isOrbit {t : LaneSt} (h : IsOrbitSt t) : IsOrbitSt (laneStep t) := by
  rcases t with ⟨c, z, k⟩
  rcases h with ⟨off, hz⟩
  exact ⟨off + 1, by simp only at hz; rw [hz]; rfl⟩

/-- The early exit of `count` never changes the emitted counts: if every
lane has diverged, no lane count would ever be incremented again. -/
theorem countLoop_cnt : ∀ (n : ℕ) (s : List LaneSt), (∀ t ∈ s, IsOrbitSt t) →
    (countLoop n s).map (fun t => t.2.2) = s.map fun t => (laneIter n t).2.2
  | 0, s, _ => by
    apply List.map_congr_left
    intro t _
    rfl
  | n + 1, s, hv => by
    unfold countLoop
    split
    · next hall =>
      apply List.map_congr_left
      intro t ht
      rcases t with ⟨c, z, k⟩
      rcases hv _ ht with ⟨off, hz⟩
      simp only at hz
      subst hz
      have hdiv : laneP c off = false := by
        have := List.all_eq_true.mp hall _ ht
        simpa [laneP] using this
      rw [show ((c, simdOrbit c off, k) : LaneSt).2.2 = k from rfl,
        laneIter_cnt c (n + 1) off k,
        cntFrom_of_false _ _ _ fun u hu => laneP_false_mono c hu hdiv]
      omega
    · next hall =>
      rw [countLoop_cnt n (s.map laneStep)
        (fun t ht => by
          rcases List.mem_map.mp ht with ⟨u, hu, rfl⟩
          exact laneStep_isOrbit (hv u hu)),
        List.map_map]
      apply List.map_congr_left
      intro t _
      rfl

/-- `MandelbrotIter::count` computes, for each lane `c`, the length of the
maximal initial run of loop steps whose mask `arg_sq z_{t+1} ≤ 4` is true,
capped at `iters`. -/
theorem count_eq_map (cs : List QC) (iters : ℕ) :
    count cs iters = cs.map fun c => frontLen (laneP c) 0 iters := by
  unfold count
  rw [countLoop_cnt iters _ (by
    intro t ht
    rcases List.mem_map.mp ht with ⟨c, _, rfl⟩
    exact ⟨0, rfl⟩), List.map_map]
  apply List.map_congr_left
  intro c _
  show (laneIter iters (c, simdOrbit c 0, 0)).2.2 = frontLen (laneP c) 0 iters
  rw [laneIter_cnt c iters 0 0, cntFrom_eq_frontLen (laneP c) (laneP_anti c) 0 iters]
  omega

/-! ### The accumulated coordinates of `compute_mandelbrot` are affine -/

theorem colsGo_succ (y dx : ℚ) (it row : ℕ) (x : ℚ) (col n : ℕ) :
    colsGo y dx it row x col (n + 1) =
      ((row, col), (x, y), mandelbrot_kernel x y it) ::
        colsGo y dx it row (x + dx) (col + 1) n := rfl

theorem rowsGo_succ (min_x dx dy : ℚ) (inner it : ℕ) (y : ℚ) (row n : ℕ) :
    rowsGo min_x dx dy inner it y row (n + 1) =
      colsGo y dx it row min_x 0 inner ++
        rowsGo min_x dx dy inner it (y + dy) (row + 1) n := rfl

theorem colsGo_eq (y dx : ℚ) (it row : ℕ) :
    ∀ (n : ℕ) (x : ℚ) (col : ℕ),
      colsGo y dx it row x col n =
        (List.range n).map fun t =>
          ((row, col + t), (x + dx * (t : ℕ), y),
            mandelbrot_kernel (x + dx * (t : ℕ)) y it)
  | 0, _, _ => rfl
  | n + 1, x, col => by
    rw [colsGo_succ, colsGo_eq y dx it row n (x + dx) (col + 1),
      List.range_succ_eq_map, List.map_cons, List.map_map]
    congr 1
    · norm_num
    · apply List.map_congr_left
      intro t _
      simp only [Function.comp_apply, Nat.succ_eq_add_one]
      have h1 : col + (t + 1) = col + 1 + t := by omega
      have h2 : x + dx * ((t + 1 : ℕ) : ℚ) = x + dx + dx * ((t : ℕ) : ℚ) := by
        push_cast
        ring
      rw [h1, h2]

theorem rowsGo_eq (min_x dx dy : ℚ) (inner it : ℕ) :
    ∀ (n : ℕ) (y : ℚ) (row : ℕ),
      rowsGo min_x dx dy inner it y row n =
        ((List.range n).map fun s =>
          colsGo (y + dy * (s : ℕ)) dx it (row + s) min_x 0 inner).flatten
  | 0, _, _ => rfl
  | n + 1, y, row => by
    rw [rowsGo_succ, rowsGo_eq min_x dx dy inner it n (y + dy) (row + 1),
      List.range_succ_eq_map, List.map_cons, List.map_map, List.flatten_cons]
    congr 1
    · norm_num
    · congr 1
      apply List.map_congr_left
      intro s _
      simp only [Function.comp_apply, Nat.succ_eq_add_one]
      have h1 : row + (s + 1) = row + 1 + s := by omega
      have h2 : y + dy * ((s + 1 : ℕ) : ℚ) = y + dy + dy * ((s : ℕ) : ℚ) := by
        push_cast
        ring
      rw [h1, h2]

/-- `compute_mandelbrot` in closed form: the trace visits, for each of the
`height` rows, `height` (sic) columns, at the affine points
`(min_x + dx·col, min_y + dy·row)`. -/
theorem compute_mandelbrot_eq (mnx mxx mny mxy : ℚ) (w h it : ℕ) :
    compute_mandelbrot mnx mxx mny mxy w h it =
      ((List.range h).map fun r =>
        (List.range h).map fun c =>
          ((r, c),
            (mnx + (mxx - mnx) / (w : ℚ) * (c : ℕ),
             mny + (mxy - mny) / (h : ℚ) * (r : ℕ)),
            mandelbrot_kernel (mnx + (mxx - mnx) / (w : ℚ) * (c : ℕ))
              (mny + (mxy - mny) / (h : ℚ) * (r : ℕ)) it)).flatten := by
  unfold compute_mandelbrot
  rw [rowsGo_eq]
  congr 1
  apply List.map_congr_left
  intro r _
  rw [colsGo_eq]
  apply List.map_congr_left
  intro c _
  norm_num

/-! ### Misc helper lemmas -/

theorem frontLen_eq_zero {p : ℕ → Bool} {s : ℕ} (h : p s = false) :
    ∀ n, frontLen p s n = 0
  | 0 => rfl
  | n + 1 => by unfold frontLen; rw [h]; simp

theorem frontLen_true_of_lt (p : ℕ → Bool) :
    ∀ n s k, s ≤ k → k < s + frontLen p s n → p k = true
  | 0, s, k, h1, h2 => by unfold frontLen at h2; omega
  | n + 1, s, k, h1, h2 => by
    unfold frontLen at h2
    cases hp : p s with
    | false => rw [hp] at h2; simp at h2; omega
    | true =>
      rw [hp] at h2
      simp at h2
      rcases Nat.eq_or_lt_of_le h1 with he | hlt
      · exact he ▸ hp
      · exact frontLen_true_of_lt p n (s + 1) k hlt (by omega)

theorem frontLen_stop (p : ℕ → Bool) :
    ∀ n s, frontLen p s n < n → p (s + frontLen p s n) = false
  | 0, _, h => by omega
  | n + 1, s, h => by
    unfold frontLen at h ⊢
    cases hp : p s with
    | false => simpa using hp
    | true =>
      rw [hp] at h
      rw [if_pos rfl] at h
      rw [if_pos rfl,
        show s + (frontLen p (s + 1) n + 1) = (s + 1) + frontLen p (s + 1) n by omega]
      exact frontLen_stop p n (s + 1) (by omega)

theorem scalarOrbit_zero : ∀ k, scalarOrbit (0, 0) k = (0, 0)
  | 0 => rfl
  | k + 1 => by
    show qadd (qmul (scalarOrbit (0, 0) k) (scalarOrbit (0, 0) k)) (0, 0) = (0, 0)
    rw [scalarOrbit_zero k]
    simp [qadd, qmul]

theorem simdOrbit_zero : ∀ t, simdOrbit ((0 : ℚ), (0 : ℚ)) t = (0, 0)
  | 0 => rfl
  | t + 1 => by
    show mandelNext (0, 0) (simdOrbit (0, 0) t) = (0, 0)
    rw [simdOrbit_zero t]
    simp [mandelNext, qadd, qmul]

/-! ## Claims -/

/-- C1, counterexample.  The three strategies are not bit-identical: on the
viewport `(3,11)×(3,4)` at resolution 8×1 with budget 1 (width divisible by
the 8 lanes), `compute_mandelbrot_par` produces count 1 at every pixel while
`simd_par::generate` produces count 0; and on a 3×2 grid `compute_mandelbrot`
never even writes pixel `(0,2)`, so it cannot agree with the parallel grid
either. -/
theorem c1_counterexample :
    compute_mandelbrot_par 3 11 3 4 8 1 1 = [1, 1, 1, 1, 1, 1, 1, 1] ∧
    generate 3 11 3 4 8 1 1 = Except.ok [0, 0, 0, 0, 0, 0, 0, 0] ∧
    (1 : ℕ) ≠ 0 ∧
    ¬((0, 2) ∈ (compute_mandelbrot 0 1 0 1 3 2 1).map fun e => e.1) := by
  refine ⟨?_, ?_, by norm_num, ?_⟩
  · norm_num [compute_mandelbrot_par, mandelbrot_kernel, kernelAux, qadd, qmul,
      arg_sq, List.range_succ]
  · norm_num [generate, count, countLoop, laneStep, allDiverged, undiverged,
      mandelNext, qadd, qmul, arg_sq, List.range_succ]
  · simp [compute_mandelbrot, rowsGo, colsGo]

/-- C1, amended: only the two scalar-kernel strategies are observably
identical, and (because of the `for col in 0..height` slip) only when
`width = height`; in exact arithmetic `compute_mandelbrot` then writes,
cell for cell in row-major order, exactly the values of the
`compute_mandelbrot_par` grid.  The vectorized strategy is excluded: its
counts differ (see the counterexample). -/
theorem c1_scalar_par_identical (mnx mxx mny mxy : ℚ) (w it : ℕ) :
    (compute_mandelbrot mnx mxx mny mxy w w it).map (fun e => e.2.2) =
      compute_mandelbrot_par mnx mxx mny mxy w w it := by
  rw [compute_mandelbrot_eq]
  unfold compute_mandelbrot_par
  rw [List.map_flatten, List.map_map]
  congr 1
  apply List.map_congr_left
  intro r _
  simp only [Function.comp_apply]
  rw [List.map_map]
  rfl

/-- C2, code bug.  With width 2 and height 3 (viewport `(0,1)×(0,1)`,
budget 1), the inner column loop of `compute_mandelbrot` runs over
`0..height = 0..3`, so the routine writes the out-of-range column index 2
in every row — 9 writes into a grid of only `2*3 = 6` cells — instead of
writing each of the 6 cells exactly once. -/
theorem c2_out_of_range_write :
    ((0, 2) ∈ (compute_mandelbrot 0 1 0 1 2 3 1).map fun e => e.1) ∧
    (compute_mandelbrot 0 1 0 1 2 3 1).length = 9 ∧ 2 * 3 = 6 := by
  refine ⟨?_, ?_, rfl⟩ <;> simp [compute_mandelbrot, rowsGo, colsGo]

/-- C3, counterexample.  For `c = 3+3i` and budget 2 the scalar kernel
returns 1 but every lane of the vectorized kernel returns 0: the strategies
do not return the same count at this point. -/
theorem c3_counterexample :
    mandelbrot_kernel 3 3 2 = 1 ∧
    count [(3, 3), (3, 3), (3, 3), (3, 3), (3, 3), (3, 3), (3, 3), (3, 3)] 2 =
      [0, 0, 0, 0, 0, 0, 0, 0] ∧
    (1 : ℕ) ≠ 0 := by
  refine ⟨?_, ?_, by norm_num⟩
  · norm_num [mandelbrot_kernel, kernelAux, qadd, qmul, arg_sq]
  · norm_num [count, countLoop, laneStep, allDiverged, undiverged, mandelNext,
      qadd, qmul, arg_sq]

/-- C3, amended.  For the immediately-diverging point `c = 3+3i` and every
budget ≥ 1 the scalar kernel returns 1 (so `1 ≤ k ≤ budget` holds for it),
while every lane of the vectorized kernel fed that point returns 0 — one
less, because its orbit starts at `z = c` and its mask treats `c` as
already diverged before any increment. -/
theorem c3_diverging_point (b : ℕ) (hb : 1 ≤ b) :
    mandelbrot_kernel 3 3 b = 1 ∧
    ∀ k ∈ count (List.replicate 8 ((3 : ℚ), (3 : ℚ))) b, k = 0 := by
  constructor
  · rw [mandelbrot_kernel_eq]
    obtain ⟨m, rfl⟩ : ∃ m, b = m + 1 := ⟨b - 1, by omega⟩
    unfold frontLen
    rw [show scalarP (3, 3) 0 = true by norm_num [scalarP, scalarOrbit, arg_sq],
      if_pos rfl,
      frontLen_eq_zero
        (show scalarP ((3 : ℚ), (3 : ℚ)) 1 = false by
          norm_num [scalarP, scalarOrbit, arg_sq, qadd, qmul])]
  · intro k hk
    rw [count_eq_map] at hk
    rcases List.mem_map.mp hk with ⟨c, hc, rfl⟩
    rw [List.eq_of_mem_replicate hc]
    exact frontLen_eq_zero
      (by norm_num [laneP, undiverged, simdOrbit, arg_sq]) b

/-- C3, witness: the amended claim at budget 1. -/
theorem c3_witness : mandelbrot_kernel 3 3 1 = 1 ∧ (0 : ℕ) = 0 :=
  ⟨(c3_diverging_point 1 (by norm_num)).1,
   (c3_diverging_point 1 (by norm_num)).2 0
     (by norm_num [count, countLoop, allDiverged, undiverged, laneStep,
       mandelNext, arg_sq, qadd, qmul, List.replicate])⟩

/-- The escape count exactly as the claim words it: "the number of steps
executed while the squared magnitude has not exceeded 4.0" (i.e. while
`arg_sq ≤ 4`), capped at the budget.  This definition follows the claim's
words, for comparison against the source's `mandelbrot_kernel`; it is not
translated from the source. -/
def spec_iterate_count (c : QC) (b : ℕ) : ℕ :=
  frontLen (fun k => decide (arg_sq (scalarOrbit c k) ≤ 4)) 0 b

/-- C4, counterexample.  At `c = -2+0i` (whose first iterate has squared
magnitude exactly 4.0) with budget 2, the claimed count — steps executed
while `arg_sq` has not exceeded 4.0 — is 2, but `mandelbrot_kernel`
returns 1: the code stops as soon as `arg_sq ≥ 4.0`, not `> 4.0`. -/
theorem c4_counterexample :
    mandelbrot_kernel (-2) 0 2 = 1 ∧ spec_iterate_count (-2, 0) 2 = 2 := by
  constructor
  · norm_num [mandelbrot_kernel, kernelAux, qadd, qmul, arg_sq]
  · norm_num [spec_iterate_count, frontLen, scalarOrbit, qadd, qmul, arg_sq]

/-- C4, amended: `mandelbrot_kernel point budget` returns the 1-indexed
first step at which the iterate satisfies `arg_sq ≥ 4.0` (strictly below
4.0 the loop continues), capped at `budget`: the result is at most the
budget, every earlier iterate has `arg_sq < 4`, and when the budget was not
exhausted the iterate at the returned index has `arg_sq ≥ 4`. -/
theorem c4_kernel_first_escape (x y : ℚ) (b : ℕ) :
    mandelbrot_kernel x y b ≤ b ∧
    (∀ k, k < mandelbrot_kernel x y b → arg_sq (scalarOrbit (x, y) k) < 4) ∧
    (mandelbrot_kernel x y b < b →
      4 ≤ arg_sq (scalarOrbit (x, y) (mandelbrot_kernel x y b))) := by
  rw [mandelbrot_kernel_eq]
  refine ⟨frontLen_le _ _ _, ?_, ?_⟩
  · intro k hk
    have h := frontLen_true_of_lt (scalarP (x, y)) b 0 k (Nat.zero_le k) (by omega)
    simpa [scalarP] using h
  · intro hlt
    have h := frontLen_stop (scalarP (x, y)) b 0 hlt
    rw [Nat.zero_add] at h
    simpa [scalarP, not_lt] using h

/-- C4, witness: at `c = -2+0i`, budget 2, the kernel stops early and the
iterate at the returned index has `arg_sq ≥ 4`. -/
theorem c4_witness :
    4 ≤ arg_sq (scalarOrbit ((-2 : ℚ), (0 : ℚ)) (mandelbrot_kernel (-2) 0 2)) :=
  (c4_kernel_first_escape (-2) 0 2).2.2
    (by norm_num [mandelbrot_kernel, kernelAux, qadd, qmul, arg_sq])

/-- C5: in `MandelbrotIter::count`, lane `i` of the result is the length of
the maximal initial run of loop steps whose mask (`arg_sq ≤ 4` of the
lane's current iterate) is true, capped at the budget.  In particular the
count is incremented exactly at mask-true steps, a diverged lane is never
incremented again (the run is an initial run — divergence is permanent by
`simd_mono`), and the early exit when all lanes have diverged never changes
any lane's emitted count. -/
theorem c5_masked_lane_count (cs : List QC) (iters i : ℕ) (c : QC)
    (h : cs[i]? = some c) :
    (count cs iters)[i]? = some (frontLen (laneP c) 0 iters) := by
  rw [count_eq_map, List.getElem?_map, h, Option.map_some']

/-- C5, witness at the lane group `[(1,1)]` with budget 3. -/
theorem c5_witness :
    (count [((1 : ℚ), (1 : ℚ))] 3)[0]? = some (frontLen (laneP (1, 1)) 0 3) :=
  c5_masked_lane_count [(1, 1)] 3 0 (1, 1) rfl

/-- C6, counterexample.  `c = -2+0i` never *exceeds* the threshold: every
iterate of its scalar orbit up to budget 2 has `arg_sq ≤ 4`.  Yet
`mandelbrot_kernel` returns 1, not the budget 2, because the scalar kernel
already stops at `arg_sq = 4.0` exactly. -/
theorem c6_counterexample :
    (∀ k, k ≤ 2 → arg_sq (scalarOrbit ((-2 : ℚ), 0) k) ≤ 4) ∧
    mandelbrot_kernel (-2) 0 2 = 1 ∧ (1 : ℕ) ≠ 2 := by
  refine ⟨?_, ?_, by norm_num⟩
  · intro k hk
    interval_cases k <;> norm_num [scalarOrbit, qadd, qmul, arg_sq]
  · norm_num [mandelbrot_kernel, kernelAux, qadd, qmul, arg_sq]

/-- C6, amended.  A point returns exactly the budget from the scalar kernel
when its orbit stays *strictly below* the threshold (`arg_sq < 4`) at every
step within the budget, and a lane returns exactly the budget from the
vectorized kernel when its orbit stays at `arg_sq ≤ 4` at every step; in
particular `c = 0+0i` returns the budget from the scalar kernel (and from
every lane, via the second part at `cs = [(0,0)]`). -/
theorem c6_never_diverging_budget :
    (∀ x y b, (∀ k, k < b → arg_sq (scalarOrbit (x, y) k) < 4) →
        mandelbrot_kernel x y b = b) ∧
    (∀ (cs : List QC) (iters i : ℕ) (c : QC), cs[i]? = some c →
        (∀ t, t < iters → arg_sq (simdOrbit c t) ≤ 4) →
        (count cs iters)[i]? = some iters) ∧
    (∀ b, mandelbrot_kernel 0 0 b = b) := by
  have hscalar : ∀ x y b, (∀ k, k < b → arg_sq (scalarOrbit (x, y) k) < 4) →
      mandelbrot_kernel x y b = b := by
    intro x y b h
    rw [mandelbrot_kernel_eq]
    exact frontLen_full _ 0 b fun t ht1 ht2 => by
      simp only [scalarP, decide_eq_true_eq]
      exact h t (by omega)
  refine ⟨hscalar, ?_, ?_⟩
  · intro cs iters i c hget h
    rw [count_eq_map, List.getElem?_map, hget, Option.map_some']
    congr 1
    exact frontLen_full _ 0 iters fun t ht1 ht2 => by
      simp only [laneP, undiverged, decide_eq_true_eq]
      exact h t (by omega)
  · intro b
    exact hscalar 0 0 b fun k hk => by
      rw [scalarOrbit_zero]
      norm_num [arg_sq]

/-- C6, witness: `c = 0` at budget 3, scalar and one vectorized lane. -/
theorem c6_witness :
    mandelbrot_kernel 0 0 3 = 3 ∧ (count [((0 : ℚ), (0 : ℚ))] 3)[0]? = some 3 :=
  ⟨c6_never_diverging_budget.1 0 0 3
     (fun k _ => by rw [scalarOrbit_zero]; norm_num [arg_sq]),
   c6_never_diverging_budget.2.1 [(0, 0)] 3 0 (0, 0) rfl
     (fun t _ => by rw [simdOrbit_zero]; norm_num [arg_sq])⟩

/-- C7, code bug.  With width 3 and height 2 (viewport `(0,1)×(0,1)`,
budget 1), pixel `(0, 2)` has `col = 2 < width = 3`, yet
`compute_mandelbrot` never feeds any point to the kernel for it — its
column loop runs over `0..height = 0..2` — while pixel `(0, 1)` is fed as
expected.  The claimed mapping therefore fails for the scalar strategy. -/
theorem c7_pixel_never_fed :
    ¬((0, 2) ∈ (compute_mandelbrot 0 1 0 1 3 2 1).map fun e => e.1) ∧
    ((0, 1) ∈ (compute_mandelbrot 0 1 0 1 3 2 1).map fun e => e.1) ∧
    2 < 3 := by
  refine ⟨?_, ?_, by norm_num⟩ <;> simp [compute_mandelbrot, rowsGo, colsGo]

/-- C8: whenever the width is not divisible by the lane width 8,
`simd_par::generate` fails before any computation — the model returns the
assertion's error and no output grid (in the source this is the
`assert_eq!` firing before the output buffer even exists). -/
theorem c8_width_not_divisible (mnx mxx mny mxy : ℚ) (w h it : ℕ)
    (hw : w % 8 ≠ 0) :
    generate mnx mxx mny mxy w h it =
      Except.error "image width is not divisible by the number of vector lanes" := by
  unfold generate
  rw [if_neg hw]

/-- C8, witness: width 5 is rejected. -/
theorem c8_witness :
    generate 0 1 0 1 5 1 1 =
      Except.error "image width is not divisible by the number of vector lanes" :=
  c8_width_not_divisible 0 1 0 1 5 1 1 (by norm_num)

/-- C9: both kernels always terminate with at most `budget` counted steps:
the scalar kernel's result (the number of loop iterations it executed) is
at most its budget, and every per-lane count emitted by the vectorized
kernel is at most its budget.  (Both models are structurally fuel-bounded
by the budget, so termination is by construction.) -/
theorem c9_at_most_budget :
    (∀ x y b, mandelbrot_kernel x y b ≤ b) ∧
    (∀ (cs : List QC) (iters : ℕ), ∀ k ∈ count cs iters, k ≤ iters) := by
  constructor
  · intro x y b
    rw [mandelbrot_kernel_eq]
    exact frontLen_le _ _ _
  · intro cs iters k hk
    rw [count_eq_map] at hk
    rcases List.mem_map.mp hk with ⟨c, _, rfl⟩
    exact frontLen_le _ _ _

/-- C9, witness. -/
theorem c9_witness : mandelbrot_kernel 3 3 7 ≤ 7 ∧ (0 : ℕ) ≤ 5 :=
  ⟨c9_at_most_budget.1 3 3 7,
   c9_at_most_budget.2 [((3 : ℚ), (3 : ℚ))] 5 0
     (by norm_num [count, countLoop, allDiverged, undiverged, laneStep,
       mandelNext, arg_sq, qadd, qmul])⟩

/-- C10: `MandelbrotIter::next` returns `Some` on every state, so the
`.unwrap()` inside `count` can never panic, and `count` is a total
function: it always returns one count per lane. -/
theorem c10_next_always_some :
    (∀ s : QC × QC, ((next s).1).isSome = true) ∧
    (∀ (cs : List QC) (iters : ℕ), (count cs iters).length = cs.length) := by
  constructor
  · intro s
    rfl
  · intro cs iters
    rw [count_eq_map, List.length_map]

end Mandel
